import Mathlib

/-!
Verification of the route-extraction and scoring core of `fastapi_auditor.py`
(the "ModernAPI" FastAPI modernization auditor).

Text is modelled as `List Char`.  The regular expressions used by the source
are simple enough to admit direct deterministic models:

* `VERSION_PATTERN = /v\d+` (IGNORECASE), used with `re.search`;
* `extract_string_arg`'s pattern `kw\s*=\s*["]([^"]+)["]` (quote class holds
  both quote characters) and its anchored fallback `^\s*["]([^"]+)["]`;
* `has_kwarg`'s pattern `kw\s*=`.

Each character class in those patterns excludes the character that terminates
the adjacent greedy repetition, so greedy matching never needs backtracking and
a `takeWhile`/`dropWhile` based model is exact.  `re.search` tries successive
start positions left to right, which is modelled by folding over suffixes.
`\s` and `str.strip` are modelled over the ASCII whitespace characters.
-/
/-- Exit code `EXIT_OK = 0` from the source. -/
def EXIT_OK : Nat := 0

/-- Exit code `EXIT_SCORE_BELOW_THRESHOLD = 1` from the source. -/
def EXIT_SCORE_BELOW_THRESHOLD : Nat := 1

/-- Exit code `EXIT_INVALID_REPO = 2` from the source. -/
def EXIT_INVALID_REPO : Nat := 2

/-- Exit code `EXIT_INTERNAL_ERROR = 3` from the source. -/
def EXIT_INTERNAL_ERROR : Nat := 3

/-- ASCII whitespace, the characters matched by `\s` (and stripped by
`str.strip`) on the ASCII inputs the auditor scans. -/
def isSpc (c : Char) : Bool :=
  c == ' ' || c == '\t' || c == '\n' || c == '\r' || c == '\x0b' || c == '\x0c'

/-- The quote class of `extract_string_arg`: a double or single quote. -/
def isQuote (c : Char) : Bool :=
  c == '"' || c == Char.ofNat 39

/-- Greedy `\s*`: drop the maximal run of whitespace. -/
def dropSpaces (s : List Char) : List Char :=
  s.dropWhile isSpc

/-- Python `str.strip()`: remove leading and trailing whitespace. -/
def stripChars (s : List Char) : List Char :=
  ((s.dropWhile isSpc).reverse.dropWhile isSpc).reverse

/-- Attempt of the pattern fragment `["]([^"]+)["]` (quote class holds both
quote characters) at the current position: an opening quote, a maximal
nonempty run of non-quote characters (the captured group), then a closing
quote character (not necessarily the same quote). -/
def matchQuotedVal : List Char → Option (List Char)
  | [] => none
  | c :: rest =>
    if isQuote c then
      let content := rest.takeWhile (fun ch => !(isQuote ch))
      match rest.drop content.length with
      | c2 :: _ => if isQuote c2 && !content.isEmpty then some content else none
      | [] => none
    else none

/-- Attempt of `extract_string_arg`'s pattern `kw\s*=\s*["]([^"]+)["]` at the
current position. -/
def matchKwValAt (kw : List Char) (s : List Char) : Option (List Char) :=
  if kw.isPrefixOf s then
    match dropSpaces (s.drop kw.length) with
    | c :: s2 => if c = '=' then matchQuotedVal (dropSpaces s2) else none
    | [] => none
  else none

/-- `re.search` for an `Option`-valued pattern attempt: try each start
position left to right and return the first success. -/
def searchOpt (f : List Char → Option (List Char)) : List Char → Option (List Char)
  | [] => f []
  | c :: rest =>
    match f (c :: rest) with
    | some v => some v
    | none => searchOpt f rest

/-- `extract_string_arg(arg_str, keyword)` from the source: search for
`keyword\s*=\s*["]([^"]+)["]` and return the captured group; for the
`"path"` keyword only, fall back to the anchored bare-literal pattern
`^\s*["]([^"]+)["]`; otherwise `None`. -/
def extract_string_arg (arg_str : List Char) (keyword : List Char) : Option (List Char) :=
  match searchOpt (matchKwValAt keyword) arg_str with
  | some v => some v
  | none =>
    if keyword = "path".toList then matchQuotedVal (dropSpaces arg_str)
    else none

/-- Attempt of `has_kwarg`'s pattern `kw\s*=` at the current position. -/
def matchKwEqAt (kw : List Char) (s : List Char) : Bool :=
  kw.isPrefixOf s &&
    (match dropSpaces (s.drop kw.length) with
     | c :: _ => c == '='
     | [] => false)

/-- `re.search` for a Bool-valued pattern attempt. -/
def searchBool (f : List Char → Bool) : List Char → Bool
  | [] => f []
  | c :: rest => f (c :: rest) || searchBool f rest

/-- `has_kwarg(arg_str, keyword)` from the source: `re.search(kw\s*=)` as a
boolean. -/
def has_kwarg (arg_str : List Char) (keyword : List Char) : Bool :=
  searchBool (matchKwEqAt keyword) arg_str

/-- Attempt of `VERSION_PATTERN = /v\d+` (IGNORECASE) at the current
position: a slash, the letter v in either case, and at least one digit. -/
def matchVerAt : List Char → Bool
  | a :: b :: c :: _ => a == '/' && (b == 'v' || b == 'V') && c.isDigit
  | _ => false

/-- `bool(VERSION_PATTERN.search(path))` from the source. -/
def versionSearch (path : List Char) : Bool :=
  searchBool matchVerAt path

/-- The argument-delimiting loop of `analyze_routes` (lines 100-108): starting
just after the opening parenthesis with `paren_depth = 1`, consume characters,
incrementing the depth on `(` and decrementing on `)`, until the depth reaches
0 or the text ends.  Returns the number of characters consumed (the final `i`
minus `start_pos`). -/
def findClose : List Char → Nat → Nat
  | _, 0 => 0
  | [], _ + 1 => 0
  | c :: rest, d + 1 =>
    if c = '(' then 1 + findClose rest (d + 2)
    else if c = ')' then 1 + findClose rest d
    else 1 + findClose rest (d + 1)

/-- `decorator_args = content[arg_start:i-1].strip()` from the source, where
`rest` is the text of the file following the opening parenthesis. -/
def decoratorArgsOf (rest : List Char) : List Char :=
  stripChars (rest.take (findClose rest 1 - 1))

/-- The per-site record built by `analyze_routes` (lines 117-127). -/
structure Route where
  method : String
  path : List Char
  file : String
  versioned : Bool
  has_response_model : Bool
  has_tags : Bool
  has_summary : Bool
  has_description : Bool
  decorator_args : List Char
  deriving DecidableEq, Repr

/-- Construction of one route record from its already-delimited (stripped)
argument text, mirroring lines 111-127 of the source: resolve the path with
`extract_string_arg(args, "path")`, substituting `"UNKNOWN"` when the result
is falsy, then compute the versioning and keyword flags. -/
def mkRouteFromArgs (method file : String) (args : List Char) : Route :=
  let path :=
    match extract_string_arg args ("path".toList) with
    | some v => if v = [] then "UNKNOWN".toList else v
    | none => "UNKNOWN".toList
  { method := method.toUpper
    path := path
    file := file
    versioned := versionSearch path
    has_response_model := has_kwarg args ("response_model".toList)
    has_tags := has_kwarg args ("tags".toList)
    has_summary := has_kwarg args ("summary".toList)
    has_description := has_kwarg args ("description".toList)
    decorator_args := args }

/-- Construction of one route record from the raw file text following the
matched opening parenthesis: delimit the argument text, then build the
record. -/
def mkRoute (method file : String) (rest : List Char) : Route :=
  mkRouteFromArgs method file (decoratorArgsOf rest)

/-- A route record after `score_route` attached its two extra fields. -/
structure ScoredRoute where
  route : Route
  score : Int
  penalties : List String
  deriving DecidableEq, Repr

/-- `score_route` from the source (lines 136-162): start from 100, subtract a
penalty and append its description for each violated rule, in source order,
then clamp the score to the floor 30. -/
def score_route (r : Route) : ScoredRoute :=
  let score0 : Int := 100
  let penalties0 : List String := []
  let score1 := if r.versioned then score0 else score0 - 20
  let penalties1 :=
    if r.versioned then penalties0
    else penalties0 ++ ["Missing API versioning (e.g., /v1/, /v2/)"]
  let score2 := if r.has_response_model then score1 else score1 - 25
  let penalties2 :=
    if r.has_response_model then penalties1
    else penalties1 ++ ["Missing response_model (critical for typing & docs)"]
  let score3 := if r.has_tags then score2 else score2 - 10
  let penalties3 :=
    if r.has_tags then penalties2
    else penalties2 ++ ["Missing tags= for OpenAPI grouping"]
  let score4 := if r.has_summary then score3 else score3 - 10
  let penalties4 :=
    if r.has_summary then penalties3
    else penalties3 ++ ["Missing summary= for endpoint title"]
  let score5 := if r.has_description then score4 else score4 - 5
  let penalties5 :=
    if r.has_description then penalties4
    else penalties4 ++ ["Missing description= for details"]
  { route := r, score := max score5 30, penalties := penalties5 }

/-- The variant of `score_route` with the `max(score, 30)` clamp removed
(everything else identical), used to state the refinement claim that the
floor is never strictly binding. -/
def score_route_noclamp (r : Route) : ScoredRoute :=
  let score0 : Int := 100
  let penalties0 : List String := []
  let score1 := if r.versioned then score0 else score0 - 20
  let penalties1 :=
    if r.versioned then penalties0
    else penalties0 ++ ["Missing API versioning (e.g., /v1/, /v2/)"]
  let score2 := if r.has_response_model then score1 else score1 - 25
  let penalties2 :=
    if r.has_response_model then penalties1
    else penalties1 ++ ["Missing response_model (critical for typing & docs)"]
  let score3 := if r.has_tags then score2 else score2 - 10
  let penalties3 :=
    if r.has_tags then penalties2
    else penalties2 ++ ["Missing tags= for OpenAPI grouping"]
  let score4 := if r.has_summary then score3 else score3 - 10
  let penalties4 :=
    if r.has_summary then penalties3
    else penalties3 ++ ["Missing summary= for endpoint title"]
  let score5 := if r.has_description then score4 else score4 - 5
  let penalties5 :=
    if r.has_description then penalties4
    else penalties4 ++ ["Missing description= for details"]
  { route := r, score := score5, penalties := penalties5 }

/-- Round half to even, the rounding mode of Python's builtin `round`. -/
def roundHalfEven (q : ℚ) : ℤ :=
  let f : ℤ := ⌊q⌋
  if q - f < 1/2 then f
  else if (1 : ℚ)/2 < q - f then f + 1
  else if f % 2 = 0 then f else f + 1

/-- Rounding of an exact rational to one decimal place, half to even: the
idealized reading of "mean rounded to one decimal place".  The program
instead applies `round` to the binary64 approximation of the mean (see
`pyRound1`), which can differ when the representation error crosses a
decimal tie. -/
def round1 (q : ℚ) : ℚ :=
  (roundHalfEven (q * 10) : ℚ) / 10

/-- Correctly rounded binary64 value of a positive rational (round to
nearest, ties to even): scale by a power of two into the significand window
[2^52, 2^53), round half to even, scale back.  Binary64 values are dyadic
rationals, so this models the float exactly throughout the normal range,
which contains every value reachable here (route-score means lie in
[30, 100]); overflow and subnormals, unreachable on scores, are outside the
model. -/
def roundB64Pos (q : ℚ) : ℚ :=
  (roundHalfEven (q * (2 : ℚ) ^ ((52 : ℤ) - Int.log 2 q)) : ℚ) *
    (2 : ℚ) ^ (Int.log 2 q - 52)

/-- Correctly rounded binary64 value of a rational: the value CPython's
`int / int` true division produces. -/
def roundB64 (q : ℚ) : ℚ :=
  if q = 0 then 0
  else if 0 < q then roundB64Pos q
  else -roundB64Pos (-q)

/-- Python `round(x, 1)` applied to a binary64 value `x`: the decimal value
of `x` is correctly rounded to one decimal place (ties to even, CPython's
dtoa), and the result is the binary64 value nearest that decimal. -/
def pyRound1 (x : ℚ) : ℚ :=
  roundB64 ((roundHalfEven (x * 10) : ℚ) / 10)

/-- The aggregation step of `analyze_command` (lines 286-292): with no routes
the program calls `sys.exit(EXIT_INTERNAL_ERROR)` before computing anything;
otherwise it scores every route and computes
`round(sum(scores) / len(scores), 1)` — the sum and length are exact
integers, the division produces the correctly rounded binary64 quotient, and
`round(x, 1)` rounds that binary64 value. -/
def aggregateScore (routes : List Route) : Except Nat ℚ :=
  if routes.isEmpty then Except.error EXIT_INTERNAL_ERROR
  else
    let scored := routes.map score_route
    Except.ok (pyRound1 (roundB64
      (((scored.map (fun r => (r.score : ℚ))).sum) / (scored.length : ℚ))))

/-- Number of opening parentheses in a character list. -/
def opensN : List Char → Nat
  | [] => 0
  | c :: rest => (if c = '(' then 1 else 0) + opensN rest

/-- Number of closing parentheses in a character list. -/
def closesN : List Char → Nat
  | [] => 0
  | c :: rest => (if c = ')' then 1 else 0) + closesN rest

def kwPresent (kw s : List Char) : Prop :=
  ∃ pre sp post, s = pre ++ (kw ++ (sp ++ '=' :: post)) ∧ ∀ c ∈ sp, isSpc c = true

/-- The path-resolution precedence as the specification states it: the value
of a `path=` keyword assignment with a quoted literal if the pattern matches
anywhere (first match), otherwise a bare quoted literal at the very start of
the argument text, otherwise the `"UNKNOWN"` sentinel. -/
def pathResolved (args : List Char) : List Char :=
  match searchOpt (matchKwValAt ("path".toList)) args with
  | some v => v
  | none =>
    match matchQuotedVal args with
    | some v => v
    | none => "UNKNOWN".toList

/-- The five deficiency descriptions in the fixed rubric order of
`score_route`. -/
def penaltyMsgs : List String :=
  ["Missing API versioning (e.g., /v1/, /v2/)",
   "Missing response_model (critical for typing & docs)",
   "Missing tags= for OpenAPI grouping",
   "Missing summary= for endpoint title",
   "Missing description= for details"]

/-- The score as the specification's rubric states it: a function of the five
boolean flags alone, `max(100 - sum of triggered penalties, 30)`. -/
def scoreOfFlags (v rm tg sm ds : Bool) : Int :=
  max (100 - ((if v then 0 else 20) + (if rm then 0 else 25) + (if tg then 0 else 10) +
    (if sm then 0 else 10) + (if ds then 0 else 5))) 30

/-- The penalty list as the specification states it: the subsequence of the
fixed five-entry table selected by the violated conditions, in table order. -/
def penaltiesOfFlags (v rm tg sm ds : Bool) : List String :=
  (if v then [] else ["Missing API versioning (e.g., /v1/, /v2/)"]) ++
  (if rm then [] else ["Missing response_model (critical for typing & docs)"]) ++
  (if tg then [] else ["Missing tags= for OpenAPI grouping"]) ++
  (if sm then [] else ["Missing summary= for endpoint title"]) ++
  (if ds then [] else ["Missing description= for details"])

/-- The idealized aggregate the original claim asserts: the exact arithmetic
mean of the individual scores, rounded to one decimal place over exact
rationals. -/
def meanScore1 (routes : List Route) : ℚ :=
  round1 (((routes.map (fun r => ((score_route r).score : ℚ))).sum) / (routes.length : ℚ))

/-- The aggregate the program computes: the mean taken in binary64 (correctly
rounded double division), then rounded to one decimal place by Python's float
`round`. -/
def meanScoreFloat (routes : List Route) : ℚ :=
  pyRound1 (roundB64
    (((routes.map (fun r => ((score_route r).score : ℚ))).sum) / (routes.length : ℚ)))

/-- The scenario argument text `"/v2/orders", response_model=OrderOut,
tags=["orders"]` from the specification, run through the extractor. -/
def exRoute85 : Route :=
  mkRouteFromArgs "get" "app.py"
    ("\"/v2/orders\", response_model=OrderOut, tags=[\"orders\"]".toList)

/-- The scenario argument text `"/legacy"` from the specification, run
through the extractor. -/
def legacyRoute : Route :=
  mkRouteFromArgs "get" "app.py" ("\"/legacy\"".toList)

/-- Text after the opening parenthesis with a nested parenthesized
sub-expression; the matching close is at index 12. -/
def c2NestedRest : List Char := "\"/x\", d=f(1)) tail".toList

/-- Text after the opening parenthesis with whitespace padding inside the
parentheses; the matching close is at index 6. -/
def c2Rest : List Char := " \"/x\" ) t".toList

/-- Text after the opening parenthesis whose argument list never closes. -/
def c7Rest : List Char := "\"/x".toList

/-- An empty single-quoted string literal as argument text. -/
def emptySingleQuotes : List Char := [Char.ofNat 39, Char.ofNat 39]

/-- A route missing versioning and response model: score 100 - 20 - 25 = 55. -/
def r55 : Route :=
  { method := "GET", path := "/orders".toList, file := "app.py", versioned := false,
    has_response_model := false, has_tags := true, has_summary := true,
    has_description := true, decorator_args := [] }

/-- A route missing response model, tags and description:
score 100 - 25 - 10 - 5 = 60. -/
def r60 : Route :=
  { method := "GET", path := "/v1/orders".toList, file := "app.py", versioned := true,
    has_response_model := false, has_tags := false, has_summary := true,
    has_description := false, decorator_args := [] }

/-- 69 routes scoring 55 and 31 routes scoring 60: the exact mean is 56.55,
whose binary64 approximation lies just below the decimal tie, so the program
rounds down to 56.5 while exact decimal rounding of the mean gives 56.6. -/
def routes69x31 : List Route := List.replicate 69 r55 ++ List.replicate 31 r60

theorem opensN_nil : opensN [] = 0 := rfl

theorem closesN_nil : closesN [] = 0 := rfl

theorem opensN_open (l : List Char) : opensN ('(' :: l) = opensN l + 1 := by
  rw [opensN, if_pos rfl]; omega

theorem opensN_ne (c : Char) (l : List Char) (h : c ≠ '(') : opensN (c :: l) = opensN l := by
  rw [opensN, if_neg h]; omega

theorem closesN_close (l : List Char) : closesN (')' :: l) = closesN l + 1 := by
  rw [closesN, if_pos rfl]; omega

theorem closesN_ne (c : Char) (l : List Char) (h : c ≠ ')') : closesN (c :: l) = closesN l := by
  rw [closesN, if_neg h]; omega

theorem findClose_zero (s : List Char) : findClose s 0 = 0 := by cases s <;> rfl

theorem findClose_cons_open (rest : List Char) (d : Nat) :
    findClose ('(' :: rest) (d + 1) = 1 + findClose rest (d + 2) := by
  rw [findClose, if_pos rfl]

theorem findClose_cons_close (rest : List Char) (d : Nat) :
    findClose (')' :: rest) (d + 1) = 1 + findClose rest d := by
  rw [findClose, if_neg (by decide), if_pos rfl]

theorem findClose_cons_other (c : Char) (rest : List Char) (d : Nat)
    (h1 : c ≠ '(') (h2 : c ≠ ')') :
    findClose (c :: rest) (d + 1) = 1 + findClose rest (d + 1) := by
  rw [findClose, if_neg h1, if_neg h2]

theorem findClose_le (s : List Char) : ∀ d, findClose s d ≤ s.length := by
  induction s with
  | nil => intro d; cases d <;> simp [findClose]
  | cons c rest ih =>
    intro d
    cases d with
    | zero => simp [findClose]
    | succ d2 =>
      by_cases h1 : c = '('
      · subst h1; rw [findClose_cons_open]
        have := ih (d2 + 2); simp; omega
      · by_cases h2 : c = ')'
        · subst h2; rw [findClose_cons_close]
          have := ih d2; simp; omega
        · rw [findClose_cons_other c rest d2 h1 h2]
          have := ih (d2 + 1); simp; omega

theorem findClose_of_close :
    ∀ (s : List Char) (d j : Nat),
      s.get? j = some ')' →
      opensN (s.take j) + (d + 1) = closesN (s.take j) + 1 →
      (∀ k, k < j → s.get? k = some ')' →
        opensN (s.take k) + (d + 1) ≠ closesN (s.take k) + 1) →
      findClose s (d + 1) = j + 1 := by
  intro s
  induction s with
  | nil => intro d j hj _ _; simp at hj
  | cons c rest ih =>
    intro d j hj hbal hmin
    cases j with
    | zero =>
      have hc : c = ')' := by simpa using hj
      have hd : d = 0 := by simp [opensN_nil, closesN_nil] at hbal; omega
      subst hc; subst hd
      rw [findClose_cons_close, findClose_zero]
    | succ j2 =>
      have hj2 : rest.get? j2 = some ')' := by simpa using hj
      rw [List.take_succ_cons] at hbal
      by_cases h1 : c = '('
      · subst h1
        rw [opensN_open, closesN_ne _ _ (by decide)] at hbal
        have hmin2 : ∀ k, k < j2 → rest.get? k = some ')' →
            opensN (rest.take k) + (d + 1 + 1) ≠ closesN (rest.take k) + 1 := by
          intro k hk hck
          have := hmin (k + 1) (by omega) (by simpa using hck)
          rw [List.take_succ_cons, opensN_open, closesN_ne _ _ (by decide)] at this
          omega
        have hrec : findClose rest (d + 2) = j2 + 1 := ih (d + 1) j2 hj2 (by omega) hmin2
        rw [findClose_cons_open]
        omega
      · by_cases h2 : c = ')'
        · subst h2
          have hd : d ≠ 0 := by
            intro h0; subst h0
            exact hmin 0 (by omega) (by simp) (by simp [opensN_nil, closesN_nil])
          obtain ⟨d2, rfl⟩ : ∃ d2, d = d2 + 1 := ⟨d - 1, by omega⟩
          rw [opensN_ne _ _ (by decide), closesN_close] at hbal
          have hmin2 : ∀ k, k < j2 → rest.get? k = some ')' →
              opensN (rest.take k) + (d2 + 1) ≠ closesN (rest.take k) + 1 := by
            intro k hk hck
            have := hmin (k + 1) (by omega) (by simpa using hck)
            rw [List.take_succ_cons, opensN_ne _ _ (by decide), closesN_close] at this
            omega
          have hrec := ih d2 j2 hj2 (by omega) hmin2
          rw [findClose_cons_close]
          omega
        · rw [opensN_ne _ _ h1, closesN_ne _ _ h2] at hbal
          have hmin2 : ∀ k, k < j2 → rest.get? k = some ')' →
              opensN (rest.take k) + (d + 1) ≠ closesN (rest.take k) + 1 := by
            intro k hk hck
            have := hmin (k + 1) (by omega) (by simpa using hck)
            rw [List.take_succ_cons, opensN_ne _ _ h1, closesN_ne _ _ h2] at this
            omega
          have hrec := ih d j2 hj2 hbal hmin2
          rw [findClose_cons_other c rest d h1 h2]
          omega

theorem findClose_of_no_close :
    ∀ (s : List Char) (d : Nat),
      (∀ k, k < s.length → s.get? k = some ')' →
        opensN (s.take k) + (d + 1) ≠ closesN (s.take k) + 1) →
      findClose s (d + 1) = s.length := by
  intro s
  induction s with
  | nil => intro d _; rfl
  | cons c rest ih =>
    intro d hmin
    by_cases h1 : c = '('
    · subst h1
      have hmin2 : ∀ k, k < rest.length → rest.get? k = some ')' →
          opensN (rest.take k) + (d + 1 + 1) ≠ closesN (rest.take k) + 1 := by
        intro k hk hck
        have := hmin (k + 1) (by simp; omega) (by simpa using hck)
        rw [List.take_succ_cons, opensN_open, closesN_ne _ _ (by decide)] at this
        omega
      have hrec : findClose rest (d + 2) = rest.length := ih (d + 1) hmin2
      rw [findClose_cons_open]
      simp
      omega
    · by_cases h2 : c = ')'
      · subst h2
        have hd : d ≠ 0 := by
          intro h0; subst h0
          exact hmin 0 (by simp) (by simp) (by simp [opensN_nil, closesN_nil])
        obtain ⟨d2, rfl⟩ : ∃ d2, d = d2 + 1 := ⟨d - 1, by omega⟩
        have hmin2 : ∀ k, k < rest.length → rest.get? k = some ')' →
            opensN (rest.take k) + (d2 + 1) ≠ closesN (rest.take k) + 1 := by
          intro k hk hck
          have := hmin (k + 1) (by simp; omega) (by simpa using hck)
          rw [List.take_succ_cons, opensN_ne _ _ (by decide), closesN_close] at this
          omega
        have hrec := ih d2 hmin2
        rw [findClose_cons_close]
        simp
        omega
      · have hmin2 : ∀ k, k < rest.length → rest.get? k = some ')' →
            opensN (rest.take k) + (d + 1) ≠ closesN (rest.take k) + 1 := by
          intro k hk hck
          have := hmin (k + 1) (by simp; omega) (by simpa using hck)
          rw [List.take_succ_cons, opensN_ne _ _ h1, closesN_ne _ _ h2] at this
          omega
        have hrec := ih d hmin2
        rw [findClose_cons_other c rest d h1 h2]
        simp
        omega

theorem searchBool_eq_true_iff (f : List Char → Bool) :
    ∀ s : List Char, searchBool f s = true ↔ ∃ pre suf, s = pre ++ suf ∧ f suf = true := by
  intro s
  induction s with
  | nil =>
    simp only [searchBool]
    constructor
    · intro h; exact ⟨[], [], rfl, h⟩
    · rintro ⟨pre, suf, hs, hf⟩
      have h2 : suf = [] := (List.append_eq_nil.mp hs.symm).2
      rw [h2] at hf; exact hf
  | cons c rest ih =>
    simp only [searchBool, Bool.or_eq_true, ih]
    constructor
    · rintro (h | ⟨pre, suf, rfl, hf⟩)
      · exact ⟨[], c :: rest, rfl, h⟩
      · exact ⟨c :: pre, suf, rfl, hf⟩
    · rintro ⟨pre, suf, hs, hf⟩
      cases pre with
      | nil =>
        left
        simp only [List.nil_append] at hs
        rw [hs]; exact hf
      | cons p pre2 =>
        right
        rw [List.cons_append] at hs
        injection hs with h1 h2
        exact ⟨pre2, suf, h2, hf⟩

theorem searchOpt_some_imp (f : List Char → Option (List Char)) (P : List Char → Prop)
    (hf : ∀ t v, f t = some v → P v) :
    ∀ s v, searchOpt f s = some v → P v := by
  intro s
  induction s with
  | nil => intro v h; exact hf [] v h
  | cons c rest ih =>
    intro v h
    rw [searchOpt] at h
    cases hfc : f (c :: rest) with
    | some w => rw [hfc] at h; injection h with h2; rw [← h2]; exact hf _ _ hfc
    | none => rw [hfc] at h; exact ih v h

theorem matchQuotedVal_pos : ∀ (t v : List Char), matchQuotedVal t = some v → 0 < v.length := by
  intro t v h
  cases t with
  | nil => simp [matchQuotedVal] at h
  | cons c rest =>
    simp only [matchQuotedVal] at h
    split at h
    · split at h
      · split at h
        · rename_i hcond
          injection h with h2
          rw [← h2]
          have hne := (Bool.and_eq_true _ _).mp hcond |>.2
          simp only [Bool.not_eq_true'] at hne
          have hne2 : List.takeWhile (fun ch => !(isQuote ch)) rest ≠ [] := by
            intro hl; rw [hl] at hne; simp at hne
          exact List.length_pos.mpr hne2
        · exact absurd h (by simp)
      · exact absurd h (by simp)
    · exact absurd h (by simp)

theorem matchKwValAt_pos (kw : List Char) :
    ∀ (t v : List Char), matchKwValAt kw t = some v → 0 < v.length := by
  intro t v h
  simp only [matchKwValAt] at h
  split at h
  · split at h
    · split at h
      · exact matchQuotedVal_pos _ _ h
      · exact absurd h (by simp)
    · exact absurd h (by simp)
  · exact absurd h (by simp)

theorem extract_string_arg_pos (args kw : List Char) :
    ∀ v, extract_string_arg args kw = some v → 0 < v.length := by
  intro v h
  rw [extract_string_arg] at h
  cases hs : searchOpt (matchKwValAt kw) args with
  | some w =>
    rw [hs] at h; injection h with h2; rw [← h2]
    exact searchOpt_some_imp (matchKwValAt kw) (fun u => 0 < u.length)
      (matchKwValAt_pos kw) args w hs
  | none =>
    rw [hs] at h
    by_cases hk : kw = "path".toList
    · rw [if_pos hk] at h
      exact matchQuotedVal_pos _ _ h
    · rw [if_neg hk] at h
      exact absurd h (by simp)

theorem dropWhile_eq_self_of_prefix (p : Char → Bool) (t u : List Char)
    (ht : List.dropWhile p t = t) (hu : u <+: t) :
    List.dropWhile p u = u := by
  cases u with
  | nil => rfl
  | cons a u2 =>
    obtain ⟨r, hr⟩ := hu
    have hpa : p a = false := by
      by_contra hpa
      have hpa2 : p a = true := by
        cases hx : p a
        · exact absurd hx hpa
        · rfl
      rw [← hr, List.cons_append] at ht
      rw [List.dropWhile_cons_of_pos hpa2] at ht
      have hlen := congrArg List.length ht
      have hle := (List.dropWhile_suffix (l := u2 ++ r) p).length_le
      rw [List.length_cons] at hlen
      omega
    rw [List.dropWhile_cons_of_neg (by rw [hpa]; exact Bool.false_ne_true)]

theorem dropSpaces_stripChars (s : List Char) :
    dropSpaces (stripChars s) = stripChars s := by
  have hform : stripChars s = List.rdropWhile isSpc (List.dropWhile isSpc s) := rfl
  rw [hform, dropSpaces]
  apply dropWhile_eq_self_of_prefix isSpc (List.dropWhile isSpc s)
  · exact List.dropWhile_idempotent isSpc s
  · exact List.rdropWhile_prefix isSpc (List.dropWhile isSpc s)

theorem matchVerAt_true_iff (t : List Char) :
    matchVerAt t = true ↔
      ∃ v d post, t = '/' :: v :: d :: post ∧ (v = 'v' ∨ v = 'V') ∧ d.isDigit = true := by
  cases t with
  | nil => simp [matchVerAt]
  | cons a t1 =>
    cases t1 with
    | nil => simp [matchVerAt]
    | cons b t2 =>
      cases t2 with
      | nil => simp [matchVerAt]
      | cons c rest =>
        simp only [matchVerAt, Bool.and_eq_true, Bool.or_eq_true, beq_iff_eq]
        constructor
        · rintro ⟨⟨ha, hb⟩, hc⟩
          exact ⟨b, c, rest, by rw [ha], hb, hc⟩
        · rintro ⟨v, d, post, heq, hv, hd⟩
          injection heq with h1 h2
          injection h2 with h2 h3
          injection h3 with h3 h4
          subst h1; subst h2; subst h3
          exact ⟨⟨rfl, hv⟩, hd⟩

theorem dropWhile_append_of_all (p : Char → Bool) :
    ∀ (sp rest : List Char), (∀ c ∈ sp, p c = true) →
      List.dropWhile p (sp ++ rest) = List.dropWhile p rest := by
  intro sp
  induction sp with
  | nil => intro rest _; rfl
  | cons c sp2 ih =>
    intro rest h
    rw [List.cons_append, List.dropWhile_cons_of_pos (h c (List.mem_cons_self c sp2))]
    exact ih rest (fun x hx => h x (List.mem_cons_of_mem c hx))

theorem matchKwEqAt_true_iff (kw t : List Char) :
    matchKwEqAt kw t = true ↔
      ∃ sp post, t = kw ++ (sp ++ '=' :: post) ∧ ∀ c ∈ sp, isSpc c = true := by
  rw [matchKwEqAt, Bool.and_eq_true]
  constructor
  · rintro ⟨hpre, hmatch⟩
    obtain ⟨t2, rfl⟩ := List.isPrefixOf_iff_prefix.mp hpre
    rw [List.drop_left] at hmatch
    cases hd : dropSpaces t2 with
    | nil => rw [hd] at hmatch; simp at hmatch
    | cons c s2 =>
      rw [hd] at hmatch
      simp only [beq_iff_eq] at hmatch
      refine ⟨t2.takeWhile isSpc, s2, ?_, fun x hx => List.mem_takeWhile_imp hx⟩
      have ht2 : t2 = List.takeWhile isSpc t2 ++ '=' :: s2 := by
        rw [← hmatch, ← hd, dropSpaces, List.takeWhile_append_dropWhile]
      rw [← ht2]
  · rintro ⟨sp, post, rfl, hsp⟩
    constructor
    · exact List.isPrefixOf_iff_prefix.mpr ⟨sp ++ '=' :: post, rfl⟩
    · rw [List.drop_left, dropSpaces, dropWhile_append_of_all isSpc sp _ hsp,
        List.dropWhile_cons_of_neg (by decide)]
      simp

theorem has_kwarg_true_iff (s kw : List Char) :
    has_kwarg s kw = true ↔ kwPresent kw s := by
  rw [has_kwarg, searchBool_eq_true_iff, kwPresent]
  constructor
  · rintro ⟨pre, suf, rfl, hf⟩
    obtain ⟨sp, post, hsuf, hsp⟩ := (matchKwEqAt_true_iff kw suf).mp hf
    exact ⟨pre, sp, post, by rw [hsuf], hsp⟩
  · rintro ⟨pre, sp, post, rfl, hsp⟩
    exact ⟨pre, kw ++ (sp ++ '=' :: post), rfl,
      (matchKwEqAt_true_iff kw _).mpr ⟨sp, post, rfl, hsp⟩⟩

theorem mkRouteFromArgs_path (m f : String) (args : List Char) :
    (mkRouteFromArgs m f args).path =
      (match extract_string_arg args ("path".toList) with
       | some v => if v = [] then "UNKNOWN".toList else v
       | none => "UNKNOWN".toList) := rfl

theorem path_res_of_stripped (m f : String) (args : List Char)
    (hstrip : dropSpaces args = args) :
    (mkRouteFromArgs m f args).path = pathResolved args := by
  rw [mkRouteFromArgs_path, extract_string_arg, pathResolved]
  cases hs : searchOpt (matchKwValAt ("path".toList)) args with
  | some v =>
    have hpos : 0 < v.length :=
      searchOpt_some_imp _ (fun u => 0 < u.length) (matchKwValAt_pos _) args v hs
    have hne : v ≠ [] := by intro h; rw [h] at hpos; simp at hpos
    simp [hne]
  | none =>
    rw [if_pos rfl, hstrip]
    cases hq : matchQuotedVal args with
    | some v =>
      have hpos : 0 < v.length := matchQuotedVal_pos _ _ hq
      have hne : v ≠ [] := by intro h; rw [h] at hpos; simp at hpos
      simp [hne]
    | none => simp

/-- Claim C1: for every route record, `score_route` computes
`max(100 - sum of triggered penalties, 30)` as a pure function of the five
boolean inputs (versioning plus the four keyword flags), so the score always
lies in [30, 100]; the scenario record with versioning, response model and
tags present but summary and description absent scores 85 with exactly the
summary and description penalties. -/
theorem score_route_flags_rubric :
    (∀ r : Route, (score_route r).score =
        scoreOfFlags r.versioned r.has_response_model r.has_tags r.has_summary
          r.has_description)
    ∧ (∀ r : Route, 30 ≤ (score_route r).score ∧ (score_route r).score ≤ 100)
    ∧ exRoute85.versioned = true ∧ exRoute85.has_response_model = true
    ∧ exRoute85.has_tags = true ∧ exRoute85.has_summary = false
    ∧ exRoute85.has_description = false
    ∧ (score_route exRoute85).score = 85
    ∧ (score_route exRoute85).penalties =
        ["Missing summary= for endpoint title", "Missing description= for details"] := by
  have hflags : ∀ r : Route, (score_route r).score =
      scoreOfFlags r.versioned r.has_response_model r.has_tags r.has_summary
        r.has_description := by
    intro r
    rcases r with ⟨m, p, fl, v, rm, tg, sm, ds, da⟩
    cases v <;> cases rm <;> cases tg <;> cases sm <;> cases ds <;> rfl
  refine ⟨hflags, fun r => ?_, by decide, by decide, by decide, by decide, by decide,
    by decide, by decide⟩
  rw [hflags r]
  rcases r with ⟨m, p, fl, v, rm, tg, sm, ds, da⟩
  cases v <;> cases rm <;> cases tg <;> cases sm <;> cases ds <;>
    (dsimp only; exact ⟨by decide, by decide⟩)

/-- Claim C2 (amended): for a matched site whose argument list closes — that
is, the text after the opening parenthesis has a closing parenthesis at some
index `j` preceded by balanced parentheses, the first such index — the scan
consumes exactly `j + 1` characters and the stored argument text is the
substring strictly between the parentheses with surrounding whitespace
stripped (the source applies `.strip()` to the raw slice). -/
theorem arg_text_matching_paren (rest : List Char) (j : Nat)
    (hj : rest.get? j = some ')')
    (hbal : opensN (rest.take j) = closesN (rest.take j))
    (hmin : ∀ k, k < j → rest.get? k = some ')' →
      opensN (rest.take k) ≠ closesN (rest.take k)) :
    findClose rest 1 = j + 1 ∧ decoratorArgsOf rest = stripChars (rest.take j) := by
  have h1 : findClose rest 1 = j + 1 := by
    apply findClose_of_close rest 0 j hj (by omega)
    intro k hk hck
    have := hmin k hk hck
    omega
  refine ⟨h1, ?_⟩
  rw [decoratorArgsOf, h1]
  norm_num

theorem arg_text_matching_paren_witness :
    findClose c2NestedRest 1 = 13
    ∧ decoratorArgsOf c2NestedRest = stripChars (c2NestedRest.take 12) :=
  arg_text_matching_paren c2NestedRest 12 (by decide) (by decide) (by decide)

/-- Claim C2, counterexample to the claim as stated: with whitespace padding
inside the parentheses the stored argument text differs from the raw
substring strictly between the parentheses (index 6 is the matching close,
and no closing parenthesis precedes it). -/
theorem arg_text_not_raw_slice :
    (decoratorArgsOf c2Rest == c2Rest.take 6) = false
    ∧ c2Rest.get? 6 = some ')'
    ∧ opensN (c2Rest.take 6) = closesN (c2Rest.take 6)
    ∧ closesN (c2Rest.take 6) = 0
    ∧ decoratorArgsOf c2Rest = "\"/x\"".toList
    ∧ c2Rest.take 6 = " \"/x\" ".toList := by decide

/-- Claim C3: for every declaration form (any method, including the generic
route form) the stored path follows the fixed precedence: first quoted
`path=` keyword value, else bare leading quoted literal, else the sentinel
`"UNKNOWN"` — applied unconditionally to the stripped argument text of the
declaration. -/
theorem path_resolution_precedence :
    ∀ (m f : String) (rest : List Char),
      (mkRoute m f rest).path = pathResolved (decoratorArgsOf rest) := by
  intro m f rest
  rw [mkRoute]
  apply path_res_of_stripped
  rw [decoratorArgsOf]
  exact dropSpaces_stripChars _

/-- Claim C4: the versioning flag of a record is the version-pattern search
on its resolved path, and for every path the search succeeds exactly when the
path contains a slash, then v or V, then a digit, somewhere; the four
concrete paths from the specification behave as stated. -/
theorem versioned_iff_version_segment :
    (∀ (m f : String) (args : List Char),
        (mkRouteFromArgs m f args).versioned =
          versionSearch (mkRouteFromArgs m f args).path)
    ∧ (∀ path : List Char,
        versionSearch path = true ↔
          ∃ pre v d post, path = pre ++ '/' :: v :: d :: post
            ∧ (v = 'v' ∨ v = 'V') ∧ d.isDigit = true)
    ∧ versionSearch ("/v1/users".toList) = true
    ∧ versionSearch ("/users".toList) = false
    ∧ versionSearch ("/v12/items".toList) = true
    ∧ versionSearch ("UNKNOWN".toList) = false := by
  refine ⟨fun m f args => rfl, fun path => ?_, by decide, by decide, by decide, by decide⟩
  rw [versionSearch, searchBool_eq_true_iff]
  constructor
  · rintro ⟨pre, suf, rfl, hf⟩
    obtain ⟨v, d, post, rfl, hv, hd⟩ := (matchVerAt_true_iff suf).mp hf
    exact ⟨pre, v, d, post, rfl, hv, hd⟩
  · rintro ⟨pre, v, d, post, rfl, hv, hd⟩
    exact ⟨pre, '/' :: v :: d :: post, rfl,
      (matchVerAt_true_iff _).mpr ⟨v, d, post, rfl, hv, hd⟩⟩

/-- Claim C5: each of the four keyword flags of a record is true exactly when
the keyword name, optional whitespace, and an equals sign occur contiguously
somewhere in the argument text, regardless of the assigned value. -/
theorem kwarg_flags_iff_assignment :
    ∀ (m f : String) (args : List Char),
      ((mkRouteFromArgs m f args).has_response_model = true ↔
        kwPresent ("response_model".toList) args)
      ∧ ((mkRouteFromArgs m f args).has_tags = true ↔ kwPresent ("tags".toList) args)
      ∧ ((mkRouteFromArgs m f args).has_summary = true ↔
        kwPresent ("summary".toList) args)
      ∧ ((mkRouteFromArgs m f args).has_description = true ↔
        kwPresent ("description".toList) args) := by
  intro m f args
  exact ⟨has_kwarg_true_iff args _, has_kwarg_true_iff args _,
    has_kwarg_true_iff args _, has_kwarg_true_iff args _⟩

/-- Claim C6: the penalties list of every scored route is exactly the
subsequence of the five fixed-order rubric descriptions selected by the
violated conditions (hence depends only on the flags, never on input order);
the `"/legacy"` scenario receives all five penalties in table order and
scores 30. -/
theorem penalties_fixed_order :
    (∀ r : Route, (score_route r).penalties =
        penaltiesOfFlags r.versioned r.has_response_model r.has_tags r.has_summary
          r.has_description)
    ∧ (∀ r : Route, List.Sublist (score_route r).penalties penaltyMsgs)
    ∧ (score_route legacyRoute).score = 30
    ∧ (score_route legacyRoute).penalties = penaltyMsgs := by
  have hpens : ∀ r : Route, (score_route r).penalties =
      penaltiesOfFlags r.versioned r.has_response_model r.has_tags r.has_summary
        r.has_description := by
    intro r
    rcases r with ⟨m, p, fl, v, rm, tg, sm, ds, da⟩
    cases v <;> cases rm <;> cases tg <;> cases sm <;> cases ds <;> rfl
  refine ⟨hpens, fun r => ?_, by decide, by decide⟩
  rw [hpens r]
  rcases r with ⟨m, p, fl, v, rm, tg, sm, ds, da⟩
  cases v <;> cases rm <;> cases tg <;> cases sm <;> cases ds <;> (dsimp only; decide)

/-- Claim C7 (amended): the delimiting scan always terminates, consuming at
most the whole remaining text; on a declaration whose argument list never
closes it consumes exactly to end-of-file and the record is still built, its
argument text being the remaining text with its final character dropped
(the `content[arg_start:i-1]` slice with `i` at end-of-file) and whitespace
stripped. -/
theorem scan_eof_on_unclosed :
    (∀ (s : List Char) (d : Nat), findClose s d ≤ s.length)
    ∧ (∀ s : List Char,
        (∀ k, k < s.length → s.get? k = some ')' →
          opensN (s.take k) ≠ closesN (s.take k)) →
        findClose s 1 = s.length
        ∧ decoratorArgsOf s = stripChars (s.take (s.length - 1))) := by
  constructor
  · exact fun s d => findClose_le s d
  · intro s hno
    have h1 : findClose s 1 = s.length := by
      apply findClose_of_no_close s 0
      intro k hk hck
      have := hno k hk hck
      omega
    refine ⟨h1, ?_⟩
    rw [decoratorArgsOf, h1]

theorem scan_eof_on_unclosed_witness :
    findClose c7Rest 1 = c7Rest.length
    ∧ decoratorArgsOf c7Rest = stripChars (c7Rest.take (c7Rest.length - 1)) :=
  scan_eof_on_unclosed.2 c7Rest (by decide)

/-- Claim C7, counterexample to the claim as stated: on unclosed input the
stored argument text is not the entire remaining text — the final character
is dropped by the slice. -/
theorem scan_eof_arg_text_cex :
    (decoratorArgsOf c7Rest == c7Rest) = false
    ∧ closesN c7Rest = 0
    ∧ decoratorArgsOf c7Rest = "\"/".toList := by decide

theorem roundHalfEven_eq_of (q : ℚ) (n : ℤ) (h0 : (n : ℚ) ≤ q)
    (h1 : q < (n : ℚ) + 1/2) : roundHalfEven q = n := by
  have hfl : ⌊q⌋ = n := by
    apply Int.floor_eq_iff.mpr
    constructor
    · exact h0
    · linarith
  rw [roundHalfEven]
  simp only [hfl]
  rw [if_pos (by linarith [h1])]

theorem roundHalfEven_eq_of_half_odd (q : ℚ) (n : ℤ) (h : q = (n : ℚ) + 1/2)
    (hodd : n % 2 = 1) : roundHalfEven q = n + 1 := by
  have hfl : ⌊q⌋ = n := by
    apply Int.floor_eq_iff.mpr
    constructor
    · rw [h]; linarith
    · rw [h]; linarith
  rw [roundHalfEven]
  simp only [hfl]
  rw [if_neg (by rw [h]; norm_num), if_neg (by rw [h]; norm_num), if_neg (by omega)]

theorem int_log2_eq (q : ℚ) (n : ℤ) (hq : 0 < q)
    (h1 : (2 : ℚ) ^ n ≤ q) (h2 : q < (2 : ℚ) ^ (n + 1)) : Int.log 2 q = n := by
  have ha : n ≤ Int.log 2 q := by
    apply (Int.zpow_le_iff_le_log (by norm_num) hq).mp
    exact_mod_cast h1
  have hb : Int.log 2 q < n + 1 := by
    apply (Int.lt_zpow_iff_log_lt (by norm_num) hq).mp
    exact_mod_cast h2
  omega

theorem roundB64_eval (q : ℚ) (n m : ℤ) (hq : 0 < q)
    (h1 : (2 : ℚ) ^ n ≤ q) (h2 : q < (2 : ℚ) ^ (n + 1))
    (hm : roundHalfEven (q * (2 : ℚ) ^ ((52 : ℤ) - n)) = m) :
    roundB64 q = (m : ℚ) * (2 : ℚ) ^ (n - 52) := by
  rw [roundB64, if_neg (by linarith), if_pos hq, roundB64Pos, int_log2_eq q n hq h1 h2, hm]

theorem roundB64_mean69x31 : roundB64 ((5655 : ℚ) / 100) = (7958704966493798 : ℚ) / 2 ^ 47 := by
  have h := roundB64_eval ((5655 : ℚ) / 100) 5 7958704966493798 (by norm_num)
    (by norm_num) (by norm_num)
    (by
      apply roundHalfEven_eq_of
      · push_cast
        norm_num
      · push_cast
        norm_num)
  rw [h]
  norm_num

theorem roundB64_tenth565 : roundB64 ((565 : ℚ) / 10) = (113 : ℚ) / 2 := by
  have h := roundB64_eval ((565 : ℚ) / 10) 5 7951668092076032 (by norm_num)
    (by norm_num) (by norm_num)
    (by
      apply roundHalfEven_eq_of
      · push_cast
        norm_num
      · push_cast
        norm_num)
  rw [h]
  norm_num

theorem pyRound1_mean69x31 : pyRound1 ((7958704966493798 : ℚ) / 2 ^ 47) = (113 : ℚ) / 2 := by
  rw [pyRound1]
  have hdec : roundHalfEven ((7958704966493798 : ℚ) / 2 ^ 47 * 10) = 565 := by
    apply roundHalfEven_eq_of
    · push_cast
      norm_num
    · push_cast
      norm_num
  rw [hdec]
  have hc : ((565 : ℤ) : ℚ) / 10 = (565 : ℚ) / 10 := by norm_num
  rw [hc]
  exact roundB64_tenth565

theorem routes69x31_score_sum :
    ((routes69x31.map (fun r => ((score_route r).score : ℚ))).sum) = 5655 := by
  have h55 : (score_route r55).score = 55 := by decide
  have h60 : (score_route r60).score = 60 := by decide
  rw [routes69x31, List.map_append, List.sum_append, List.map_replicate,
    List.map_replicate, h55, h60, List.sum_replicate, List.sum_replicate]
  push_cast
  norm_num

theorem routes69x31_length : routes69x31.length = 100 := by
  rw [routes69x31, List.length_append, List.length_replicate, List.length_replicate]

theorem meanScoreFloat_69x31 : meanScoreFloat routes69x31 = (113 : ℚ) / 2 := by
  rw [meanScoreFloat, routes69x31_score_sum, routes69x31_length]
  have hq : ((5655 : ℚ) / ((100 : ℕ) : ℚ)) = (5655 : ℚ) / 100 := by norm_num
  rw [hq, roundB64_mean69x31, pyRound1_mean69x31]

theorem meanScore1_69x31 : meanScore1 routes69x31 = (283 : ℚ) / 5 := by
  rw [meanScore1, routes69x31_score_sum, routes69x31_length, round1]
  have hq : ((5655 : ℚ) / ((100 : ℕ) : ℚ)) * 10 = ((565 : ℤ) : ℚ) + 1/2 := by
    push_cast
    norm_num
  rw [hq, roundHalfEven_eq_of_half_odd _ 565 rfl (by norm_num)]
  norm_num

/-- Claim C8 (amended): over a nonempty route list the aggregate is the mean
of the individual scores computed in binary64 (correctly rounded double
division) and rounded to one decimal place by Python's float `round` — the
decimal rounding of the nearest-double approximation of the mean, not of the
exact mean; over the empty list the program aborts with
`EXIT_INTERNAL_ERROR` before computing any average. -/
theorem aggregate_mean_or_abort :
    (∀ routes : List Route, 0 < routes.length →
        aggregateScore routes = Except.ok (meanScoreFloat routes))
    ∧ aggregateScore [] = Except.error EXIT_INTERNAL_ERROR := by
  constructor
  · intro routes h
    have hne : routes.isEmpty = false := by
      cases routes with
      | nil => simp at h
      | cons a l => rfl
    rw [aggregateScore, hne]
    simp [meanScoreFloat, List.map_map, Function.comp_def]
  · rfl

theorem aggregate_mean_or_abort_witness :
    0 < [exRoute85].length
    ∧ aggregateScore [exRoute85] = Except.ok (meanScoreFloat [exRoute85]) :=
  ⟨by decide, aggregate_mean_or_abort.1 [exRoute85] (by decide)⟩

/-- Claim C8, counterexample to the claim as stated: on 100 routes scoring
69 times 55 and 31 times 60 the exact mean is 56.55; the program's binary64
pipeline yields 113/2 = 56.5 (the nearest double to 56.55 lies below the
decimal tie), while the exact mean rounded to one decimal place is
283/5 = 56.6, so the aggregate does not equal the exact rounded mean. -/
theorem aggregate_float_vs_exact_cex :
    aggregateScore routes69x31 = Except.ok ((113 : ℚ) / 2)
    ∧ meanScore1 routes69x31 = (283 : ℚ) / 5
    ∧ (((113 : ℚ) / 2) == ((283 : ℚ) / 5)) = false := by
  refine ⟨?_, meanScore1_69x31, ?_⟩
  · have hne : routes69x31.isEmpty = false := by
      rw [routes69x31, List.replicate_succ, List.cons_append]
      rfl
    have hstep : aggregateScore routes69x31 = Except.ok (meanScoreFloat routes69x31) := by
      rw [aggregateScore, hne]
      simp [meanScoreFloat, List.map_map, Function.comp_def]
    rw [hstep, meanScoreFloat_69x31]
  · rw [beq_eq_false_iff_ne]
    norm_num

/-- Claim C9: the 30-point floor never strictly binds — the five penalties
sum to exactly 70, so `score_route` agrees with the clamp-free variant on
every record. -/
theorem clamp_never_binding : ∀ r : Route, score_route r = score_route_noclamp r := by
  intro r
  rcases r with ⟨m, p, fl, v, rm, tg, sm, ds, da⟩
  cases v <;> cases rm <;> cases tg <;> cases sm <;> cases ds <;> rfl

/-- Claim C10: both quoted-literal patterns capture at least one character,
so a declaration whose path argument is an empty quoted string (keyword or
bare, double or single quotes) resolves to the sentinel `"UNKNOWN"` and its
versioning flag is false. -/
theorem empty_quoted_path_unknown :
    (∀ (args kw : List Char), 0 < ((extract_string_arg args kw).getD ['x']).length)
    ∧ (mkRouteFromArgs "get" "app.py" ("path=\"\"".toList)).path = "UNKNOWN".toList
    ∧ (mkRouteFromArgs "get" "app.py" ("path=\"\"".toList)).versioned = false
    ∧ (mkRouteFromArgs "get" "app.py" ("\"\"".toList)).path = "UNKNOWN".toList
    ∧ (mkRouteFromArgs "get" "app.py" emptySingleQuotes).path = "UNKNOWN".toList
    ∧ (mkRouteFromArgs "get" "app.py" emptySingleQuotes).versioned = false := by
  refine ⟨fun args kw => ?_, by decide, by decide, by decide, by decide, by decide⟩
  cases h : extract_string_arg args kw with
  | some v => exact extract_string_arg_pos args kw v h
  | none => decide
